import Mathlib

/-!
Verification of the molecular-generative-modeling data pipeline.

This file gives a shallow embedding of the graph-to-tensor encoding
pipeline of `data_utils.py` and the training/evaluation control logic of
`train_graph_vae.py`, and proves (or refutes) the specified properties
about them.  Python / PyTorch semantics that matter here are modelled
explicitly:

* fallible Python operations (dict lookups, `/` on a zero denominator,
  RDKit sanitization) return `Except PyError`;
* `torch.argmax` returns the index of the first maximal entry;
* `torch_geometric.utils.add_self_loops` with no `num_nodes` argument
  infers the node count as `max(edge_index) + 1` (or `0` for an empty
  edge list);
* `torch.cat` skips one-dimensional empty tensors (shape `(0,)`), per
  the PyTorch documentation;
* float tensors carrying small integral values are modelled over `ℚ`,
  and the cosine annealing schedules over `ℝ`.
-/

/-- Python-level exceptions that the modelled code can raise. -/
inductive PyError where
  | zeroDivision
  | keyError
  | valueError
  | valenceError
  | dimMismatch
  deriving DecidableEq, Repr

/-- Python `/` on numbers: raises `ZeroDivisionError` on a zero denominator. -/
def pyDiv (a b : ℚ) : Except PyError ℚ :=
  if b = 0 then .error .zeroDivision else .ok (a / b)

/-- Auxiliary loop for `torchArgmax`: scans the tail keeping the first maximum. -/
def torchArgmaxAux (bestIdx : ℕ) (bestVal : ℚ) (cur : ℕ) : List ℚ → ℕ
  | [] => bestIdx
  | v :: vs =>
      if bestVal < v then torchArgmaxAux cur v (cur + 1) vs
      else torchArgmaxAux bestIdx bestVal (cur + 1) vs

/-- `torch.argmax` over a one-dimensional tensor: index of the first maximal
entry (`0` on the empty tensor, which torch would reject anyway). -/
def torchArgmax : List ℚ → ℕ
  | [] => 0
  | v :: vs => torchArgmaxAux 0 v 1 vs

/-! ### SelectQM9TargetProperties (data_utils.py lines 17-38) -/

/-- The canonical QM9 property-name table (`property_names` in the source). -/
def property_names : List String :=
  ["mu", "alpha", "homo", "lumo", "gap", "r2",
   "zpve", "U0", "U", "H", "G", "Cv", "U0_atom",
   "U_atom", "H_atom", "G_atom", "A", "B", "C"]

/-- Lookup in the dict `property_name_to_index` built by enumerating `tbl`
starting at position `k`; a missing key raises `KeyError`. -/
def lookupIndexAux (tbl : List String) (nm : String) (k : ℕ) : Except PyError ℕ :=
  match tbl with
  | [] => .error .keyError
  | t :: ts => if t = nm then .ok k else lookupIndexAux ts nm (k + 1)

/-- `SelectQM9TargetProperties.__init__`: translate each requested property
name to its canonical table index (failing fatally on an unknown name). -/
def SelectQM9TargetProperties.indices (properties : List String) :
    Except PyError (List ℕ) :=
  properties.mapM (fun nm => lookupIndexAux property_names nm 0)

/-- `SelectQM9TargetProperties.forward`: `data.y = data.y[:, self.indices]`
on one target row. -/
def SelectQM9TargetProperties.forward (indices : List ℕ) (y : List ℚ) : List ℚ :=
  indices.map (fun i => y.getD i 0)

/-- The composite transform: construct the index list from the requested
names, then narrow the target row. -/
def selectQM9TargetProperties (properties : List String) (y : List ℚ) :
    Except PyError (List ℚ) := do
  let idxs ← SelectQM9TargetProperties.indices properties
  return SelectQM9TargetProperties.forward idxs y

/-- Position of `nm` in the table `tbl` (first occurrence), written as a plain
recursive count; used to state order properties of the selection. -/
def tableIndexOf (tbl : List String) (nm : String) : ℕ :=
  match tbl with
  | [] => 0
  | t :: ts => if t = nm then 0 else tableIndexOf ts nm + 1

/-! ### DropQM9Hydrogen (data_utils.py lines 60-84) -/

/-- A molecular graph as held in a PyG `Data` object: per-node feature rows,
a directed edge list, and per-edge attribute rows. -/
structure MolGraphData where
  x : List (List ℚ)
  edge_index : List (ℕ × ℕ)
  edge_attr : List (List ℚ)
  deriving DecidableEq, Repr

/-- The result of `DropQM9Hydrogen`: edge endpoints have been through the
integer index remapping, so they live in `ℤ`. -/
structure DroppedGraphData where
  x : List (List ℚ)
  edge_index : List (ℤ × ℤ)
  edge_attr : List (List ℚ)
  deriving DecidableEq, Repr

/-- `torch.where(data.x.argmax(dim=1) == 0)[0]`: positions of the rows whose
argmax is the hydrogen one-hot index `0`. -/
def nodes_to_remove (x : List (List ℚ)) : List ℕ :=
  (List.range x.length).filter (fun i => torchArgmax (x.getD i []) = 0)

/-- The boolean keep-mask over node positions (`mask` in the source). -/
def keepMask (x : List (List ℚ)) : List Bool :=
  x.map (fun row => decide (torchArgmax row ≠ 0))

/-- Running sums of an integer list, carrying the accumulator. -/
def cumsumAux (s : ℤ) : List ℤ → List ℤ
  | [] => []
  | a :: as => (s + a) :: cumsumAux (s + a) as

/-- `torch.cumsum(mask, 0)` over a bool mask viewed as 0/1 integers. -/
def cumsum (l : List ℤ) : List ℤ := cumsumAux 0 l

/-- `index_mapping = torch.cumsum(mask, 0) - 1` as a list of integers. -/
def index_mapping (x : List (List ℚ)) : List ℤ :=
  (cumsum ((keepMask x).map (fun b => if b then (1 : ℤ) else 0))).map (fun s => s - 1)

/-- Keep an edge iff neither endpoint is a removed node
(`torch.isin(data.edge_index, nodes_to_remove, invert=True).all(dim=0)`). -/
def edgeKept (x : List (List ℚ)) (e : ℕ × ℕ) : Bool :=
  !((nodes_to_remove x).contains e.1) && !((nodes_to_remove x).contains e.2)

/-- `DropQM9Hydrogen.forward`: drop hydrogen rows, drop the hydrogen feature
column, drop edges touching a removed node, remap surviving endpoints through
the cumulative-sum index mapping. -/
def DropQM9Hydrogen.forward (g : MolGraphData) : DroppedGraphData :=
  let keptRows := g.x.filter (fun row => torchArgmax row ≠ 0)
  let pairs := (g.edge_index.zip g.edge_attr).filter (fun p => edgeKept g.x p.1)
  let im := index_mapping g.x
  { x := keptRows.map (fun row => row.drop 1)
    edge_index := (g.edge_index.filter (fun e => edgeKept g.x e)).map
      (fun e => (im.getD e.1 0, im.getD e.2 0))
    edge_attr := pairs.map (fun p => p.2) }

/-! ### AddNodeAttributeMatrix (data_utils.py lines 108-127) -/

/-- `AddNodeAttributeMatrix.forward` on one sample.  The pad count is the
Python integer `max_num_nodes - data.x.shape[0]`, which can be negative; list
repetition by a non-positive count yields the empty list, whose tensor has
shape `(0,)` and is skipped by `torch.cat`.  A non-empty padding block must
match the column count of `x` for the concatenation to succeed. -/
def AddNodeAttributeMatrix.forward (max_num_nodes : ℕ) (x : List (List ℚ)) :
    Except PyError (List (List ℚ)) :=
  let num_nodes_to_pad : ℤ := (max_num_nodes : ℤ) - x.length
  let cols := (x.headD []).length
  let padding_value : List ℚ := 1 :: List.replicate (cols - 1) 0
  let padding_rows := List.replicate num_nodes_to_pad.toNat padding_value
  if padding_rows.isEmpty then .ok x
  else if x.all (fun r => r.length = cols) then .ok (x ++ padding_rows)
  else .error .dimMismatch

/-! ### AddAdjacencyMatrix (data_utils.py lines 87-106) -/

/-- `torch_geometric.utils.num_nodes.maybe_num_nodes` with `num_nodes=None`:
`int(edge_index.max()) + 1` for a non-empty edge list, else `0`. -/
def maybe_num_nodes (edge_index : List (ℕ × ℕ)) : ℕ :=
  match edge_index with
  | [] => 0
  | _ => (edge_index.foldl (fun m e => max m (max e.1 e.2)) 0) + 1

/-- `torch_geometric.utils.add_self_loops(edge_index=...)` with no
`num_nodes` argument: append one loop per inferred node index. -/
def add_self_loops (edge_index : List (ℕ × ℕ)) : List (ℕ × ℕ) :=
  edge_index ++ (List.range (maybe_num_nodes edge_index)).map (fun i => (i, i))

/-- `torch_geometric.utils.to_dense_adj(edge_index, max_num_nodes=n)`:
edges with an endpoint at or beyond `n` are masked out, the rest are
scatter-added into a dense `n × n` float matrix. -/
def to_dense_adj (edge_index : List (ℕ × ℕ)) (max_num_nodes : ℕ)
    (i j : ℕ) : ℚ :=
  ((edge_index.filter
      (fun e => e.1 < max_num_nodes && e.2 < max_num_nodes)).count (i, j) : ℕ)

/-- Row-major positions of the inclusive upper triangle of an `n × n`
matrix, as selected by the boolean mask `torch.ones(n, n).triu() == 1`. -/
def triuEntries (n : ℕ) : List (ℕ × ℕ) :=
  (List.range n).flatMap (fun i => ((List.range n).drop i).map (fun j => (i, j)))

/-- `AddAdjacencyMatrix.forward`: add self-loops (with the inferred node
count), densify to `max_num_nodes × max_num_nodes`, pack the inclusive upper
triangle row-major. -/
def AddAdjacencyMatrix.forward (max_num_nodes : ℕ)
    (edge_index : List (ℕ × ℕ)) : List ℚ :=
  let adj := to_dense_adj (add_self_loops edge_index) max_num_nodes
  (triuEntries max_num_nodes).map (fun p => adj p.1 p.2)

/-- The `n` diagonal entries of a packed inclusive-upper-triangle vector:
the values sitting at the positions `(i, i)` of the packing order. -/
def packedDiagonal (n : ℕ) (packed : List ℚ) : List ℚ :=
  ((triuEntries n).zip packed).filterMap
    (fun pv => if pv.1.1 = pv.1.2 then some pv.2 else none)

/-! ### RandomPermutation (data_utils.py lines 148-198)

One batch element of the packed representation; the transform acts on each
batch element independently with its own permutation draw, so the embedding
is parametrized by the drawn permutation. -/

/-- Index set of the inclusive upper triangle (`triu_mask_adj`). -/
def TriuLe (n : ℕ) := {p : Fin n × Fin n // p.1 ≤ p.2}

/-- Index set of the strict upper triangle (`triu_mask_edge`). -/
def TriuLt (n : ℕ) := {p : Fin n × Fin n // p.1 < p.2}

/-- One batch element of `(adj_triu_mat, node_mat, edge_triu_mat)`. -/
@[ext]
structure PackedGraphTensors (n F : ℕ) where
  adj_triu_mat : TriuLe n → ℚ
  node_mat : Fin n → Fin F → ℚ
  edge_triu_mat : TriuLt n → Fin 4 → ℚ

/-- Scatter a packed inclusive upper triangle into a zero matrix
(`adj_mat[:, triu_mask_adj] = adj_triu_mat` on a fresh zero tensor). -/
def scatterTriuLe {n : ℕ} (v : TriuLe n → ℚ) (i j : Fin n) : ℚ :=
  if h : i ≤ j then v ⟨(i, j), h⟩ else 0

/-- Scatter a packed strict upper triangle into a zero 4-channel tensor
(`edge_mat[:, triu_mask_edge] = edge_triu_mat` on a fresh zero tensor). -/
def scatterTriuLt {n : ℕ} (w : TriuLt n → Fin 4 → ℚ) (i j : Fin n)
    (c : Fin 4) : ℚ :=
  if h : i < j then w ⟨(i, j), h⟩ c else 0

/-- `adj_mat = adj_mat + adj_mat.transpose(1, 2)` followed by
`adj_mat.diagonal(...).mul_(0.5)`. -/
def adjFull {n : ℕ} (v : TriuLe n → ℚ) (i j : Fin n) : ℚ :=
  if i = j then (scatterTriuLe v i j + scatterTriuLe v j i) * (1 / 2)
  else scatterTriuLe v i j + scatterTriuLe v j i

/-- `edge_mat = edge_mat + edge_mat.transpose(1, 2)` (channels untouched). -/
def edgeFull {n : ℕ} (w : TriuLt n → Fin 4 → ℚ) (i j : Fin n) (c : Fin 4) : ℚ :=
  scatterTriuLt w i j c + scatterTriuLt w j i c

/-- `perm_adj_mat[i] = adj_mat[i][perm][:, perm]`. -/
def permuteMat {n : ℕ} (perm : Equiv.Perm (Fin n)) (m : Fin n → Fin n → ℚ)
    (i j : Fin n) : ℚ :=
  m (perm i) (perm j)

/-- `perm_node_mat[i] = node_mat[i][perm]`. -/
def permuteRows {n F : ℕ} (perm : Equiv.Perm (Fin n))
    (nodeMat : Fin n → Fin F → ℚ) (i : Fin n) : Fin F → ℚ :=
  nodeMat (perm i)

/-- `perm_edge_mat[i] = edge_mat[i][perm][:, perm]`. -/
def permuteEdge {n : ℕ} (perm : Equiv.Perm (Fin n))
    (e : Fin n → Fin n → Fin 4 → ℚ) (i j : Fin n) (c : Fin 4) : ℚ :=
  e (perm i) (perm j) c

/-- Re-extract the inclusive upper triangle (`perm_adj_mat[:, triu_mask_adj]`). -/
def packTriuLe {n : ℕ} (m : Fin n → Fin n → ℚ) (q : TriuLe n) : ℚ :=
  m q.1.1 q.1.2

/-- Re-extract the strict upper triangle (`perm_edge_mat[:, triu_mask_edge]`). -/
def packTriuLt {n : ℕ} (e : Fin n → Fin n → Fin 4 → ℚ) (q : TriuLt n)
    (c : Fin 4) : ℚ :=
  e q.1.1 q.1.2 c

/-- `RandomPermutation.forward` on one batch element, with the drawn
permutation made explicit: reconstruct the full symmetric matrices from the
packed triangles, permute rows and columns, and re-pack. -/
def RandomPermutation.forward {n F : ℕ} (perm : Equiv.Perm (Fin n))
    (d : PackedGraphTensors n F) : PackedGraphTensors n F :=
  { adj_triu_mat := packTriuLe (permuteMat perm (adjFull d.adj_triu_mat))
    node_mat := permuteRows perm d.node_mat
    edge_triu_mat := packTriuLt (permuteEdge perm (edgeFull d.edge_triu_mat)) }

/-! ### graph_to_mol and qm9_pre_filter (data_utils.py lines 218-293) -/

/-- An RDKit `RWMol` as built by `graph_to_mol`: atomic numbers in node
order, and an undirected bond set keyed by `(min(u,v), max(u,v), bondTypeIndex)`
(the source deduplicates bonds into exactly such a set before adding them). -/
structure RWMol where
  atoms : List ℕ
  bonds : Finset ((ℕ × ℕ) × ℕ)
  deriving DecidableEq

/-- `class_index_to_atomic_number[class_index]`: the closed one-hot tables of
`graph_to_mol`; an out-of-range class index raises `KeyError`. -/
def class_index_to_atomic_number (includes_h : Bool) (classIndex : ℕ) :
    Except PyError ℕ :=
  if includes_h then
    match classIndex with
    | 0 => .ok 1 | 1 => .ok 6 | 2 => .ok 7 | 3 => .ok 8 | 4 => .ok 9
    | _ => .error .keyError
  else
    match classIndex with
    | 0 => .ok 6 | 1 => .ok 7 | 2 => .ok 8 | 3 => .ok 9
    | _ => .error .keyError

/-- The undirected bond set: one entry per
`tuple(sorted((start, end)) + [argmax(edge_feature)])`. -/
def undirectedBonds (edge_index : List (ℕ × ℕ)) (edge_attr : List (List ℚ)) :
    Finset ((ℕ × ℕ) × ℕ) :=
  ((edge_index.zip edge_attr).map
    (fun p => ((min p.1.1 p.1.2, max p.1.1 p.1.2), torchArgmax p.2))).toFinset

/-- One bond is addable when `bond_type_map` knows the type index and RDKit's
`AddBond` accepts it: endpoints in range and distinct. -/
def bondAddable (numAtoms : ℕ) (b : (ℕ × ℕ) × ℕ) : Prop :=
  b.1.1 < numAtoms ∧ b.1.2 < numAtoms ∧ b.1.1 ≠ b.1.2 ∧ b.2 < 4

instance (numAtoms : ℕ) (b : (ℕ × ℕ) × ℕ) : Decidable (bondAddable numAtoms b) := by
  unfold bondAddable; infer_instance

/-- `graph_to_mol(data, includes_h, validate)`.  The external RDKit
sanitization (`Chem.SanitizeMol`) is a parameter `sanitize`; everything else
follows the source: one atom per node from the feature argmax over the first
five columns, then the deduplicated undirected bonds, then (optionally) the
sanitization check. -/
def graph_to_mol (sanitize : RWMol → Except PyError Unit) (data : MolGraphData)
    (includes_h validate : Bool) : Except PyError RWMol := do
  let atomNums ← data.x.mapM
    (fun row => class_index_to_atomic_number includes_h (torchArgmax (row.take 5)))
  let bonds := undirectedBonds data.edge_index data.edge_attr
  if _h : ∀ b ∈ bonds, bondAddable atomNums.length b then
    let mol : RWMol := ⟨atomNums, bonds⟩
    if validate then do
      sanitize mol
      return mol
    else
      return mol
  else
    .error .valueError

/-- `qm9_pre_filter`: try the conversion with hydrogen included and
validation on; any raised exception is swallowed and becomes rejection. -/
def qm9_pre_filter (sanitize : RWMol → Except PyError Unit)
    (data : MolGraphData) : Bool :=
  match graph_to_mol sanitize data true true with
  | .ok _ => true
  | .error _ => false

/-! ### Generation protocol (train_graph_vae.py lines 308-360) -/

deriving instance DecidableEq for Except

/-- What one decode attempt of one latent sample yields: whether the decoded
graph is connected, and the result of `graph_to_mol(..., validate=True)` on
it (`.error` is the swallowed invalid-molecule exception).  A valid molecule
carries its canonical SMILES, abstracted as a natural number. -/
structure DecodeAttempt where
  connected : Bool
  molResult : Except PyError ℕ
  deriving DecidableEq

/-- Per-sample counters accumulated by the retry loop. -/
structure SampleStats where
  attempts : ℕ
  connected : ℕ
  valid : ℕ
  smiles : Option ℕ
  deriving DecidableEq, Repr

/-- A decode attempt succeeds when it is connected and chemically valid. -/
def attemptSuccess (a : DecodeAttempt) : Bool :=
  a.connected && (match a.molResult with | .ok _ => true | .error _ => false)

/-- The retry loop body (lines 325-348): each iteration decodes attempt
`idx`, counts it, counts connectivity, swallows the invalid-molecule
exception via `continue`, and `break`s on the first connected valid
molecule. -/
def decodeLoop (att : ℕ → DecodeAttempt) (idx : ℕ) : ℕ → SampleStats
  | 0 => ⟨0, 0, 0, none⟩
  | remaining + 1 =>
      let a := att idx
      if a.connected then
        match a.molResult with
        | .ok s => ⟨1, 1, 1, some s⟩
        | .error _ =>
            let r := decodeLoop att (idx + 1) remaining
            ⟨r.attempts + 1, r.connected + 1, r.valid, r.smiles⟩
      else
        let r := decodeLoop att (idx + 1) remaining
        ⟨r.attempts + 1, r.connected, r.valid, r.smiles⟩

/-- `for _ in range(max_decode_attempts): ...` for one sample. -/
def decodeSample (att : ℕ → DecodeAttempt) (maxAttempts : ℕ) : SampleStats :=
  decodeLoop att 0 maxAttempts

/-- The shared accumulators of the generation loop. -/
structure EvalAccum where
  total : ℕ
  connected : ℕ
  valid : ℕ
  smilesSet : Finset ℕ
  deriving DecidableEq

/-- Fold one sample's stats into the shared accumulators; a valid molecule's
SMILES is added to the generated set (the source's membership test before
adding is exactly set insertion). -/
def accumSample (acc : EvalAccum) (r : SampleStats) : EvalAccum :=
  { total := acc.total + r.attempts
    connected := acc.connected + r.connected
    valid := acc.valid + r.valid
    smilesSet := match r.smiles with
      | some s => insert s acc.smilesSet
      | none => acc.smilesSet }

/-- The generation loop over all latent samples (lines 318-348). -/
def runGeneration (maxAttempts : ℕ) (samples : List (ℕ → DecodeAttempt)) :
    EvalAccum :=
  samples.foldl (fun acc att => accumSample acc (decodeSample att maxAttempts))
    ⟨0, 0, 0, ∅⟩

/-- The derived metric record (lines 354-360). -/
structure EvalMetrics where
  meanDecodeAttempts : ℚ
  connectedness : ℚ
  validity : ℚ
  uniqueness : ℚ
  novelty : ℚ
  deriving DecidableEq, Repr

/-- The metrics dict of lines 351-360: each value is a Python division,
evaluated in order; the first `ZeroDivisionError` aborts the computation. -/
def computeMetrics (trainSmiles : Finset ℕ) (numSamples : ℕ)
    (acc : EvalAccum) : Except PyError EvalMetrics := do
  let nonNovelCount := (trainSmiles ∩ acc.smilesSet).card
  let novelCount : ℤ := (acc.smilesSet.card : ℤ) - nonNovelCount
  let mean ← pyDiv acc.total numSamples
  let conn ← pyDiv acc.connected acc.total
  let val ← pyDiv acc.valid acc.total
  let uniq ← pyDiv acc.smilesSet.card acc.valid
  let nov ← pyDiv (novelCount : ℚ) acc.smilesSet.card
  return ⟨mean, conn, val, uniq, nov⟩

/-! ### Annealing schedules (train_graph_vae.py lines 79-134) -/

open Real in
/-- `cyclic_cosine_schedule(iteration, cycle_length)`: note the floor
division `cycle_length // 2`. -/
noncomputable def cyclic_cosine_schedule (iteration cycle_length : ℕ) : ℝ :=
  let cosine_length := cycle_length / 2
  0.5 * (1 + cos ((1 + min 1 (((iteration % cycle_length : ℕ) : ℝ) /
    (cosine_length : ℝ))) * π))

open Real in
/-- `monotonic_cosine_schedule(iteration, start_iteration, end_iteration)`. -/
noncomputable def monotonic_cosine_schedule
    (iteration start_iteration end_iteration : ℤ) : ℝ :=
  let length := end_iteration - start_iteration
  let x : ℝ := min (((max (iteration - start_iteration) 0 : ℤ) : ℝ) /
    (length : ℝ)) 1
  0.5 * (1 + cos ((1 + x) * π))

/-- The `constant` schedule (`lambda x: 1` at line 124). -/
def constant_schedule (_ : ℤ) : ℝ := 1

/-- `cycle_length = math.ceil(total_iteration_count / num_cycles)` with
`num_cycles = 4` (lines 127-128). -/
def cycleLength (total_iteration_count : ℕ) : ℕ :=
  (total_iteration_count + 3) / 4

open Real in
/-- Modelled from the spec: the cyclical weight formula as the claim writes
it, with the exact real division `P/2` in the ramp denominator. -/
noncomputable def cyclicalSpecWeight (iteration cycle_length : ℕ) : ℝ :=
  0.5 * (1 + cos ((1 + min 1 (((iteration % cycle_length : ℕ) : ℝ) /
    ((cycle_length : ℝ) / 2))) * π))

/-! ## Theorems -/

/-- C5: For the monotonic annealing schedule with start=0 and end=100,
weight(0)=0, weight(100)=1, and weight(50)=0.5; and the constant schedule
returns weight 1 for every iteration, including zero and negative
iterations. -/
theorem monotonic_constant_schedule_boundary_values :
    monotonic_cosine_schedule 0 0 100 = 0 ∧
    monotonic_cosine_schedule 100 0 100 = 1 ∧
    monotonic_cosine_schedule 50 0 100 = 1 / 2 ∧
    ∀ t : ℤ, constant_schedule t = 1 := by
  refine ⟨?_, ?_, ?_, fun _ => rfl⟩
  · simp only [monotonic_cosine_schedule]
    norm_num [Real.cos_pi]
  · simp only [monotonic_cosine_schedule]
    norm_num [Real.cos_two_pi]
  · simp only [monotonic_cosine_schedule]
    have h1 : (((max ((50:ℤ) - 0) 0 : ℤ)) : ℝ) / (((100:ℤ) - 0 : ℤ) : ℝ) = 1 / 2 := by
      norm_num
    rw [h1]
    have h2 : min ((1:ℝ)/2) 1 = 1/2 := by norm_num [min_def]
    rw [h2]
    have h3 : (1 + (1:ℝ)/2) * Real.pi = Real.pi / 2 + Real.pi := by ring
    rw [h3, Real.cos_add_pi, Real.cos_pi_div_two]
    norm_num

/-- C3 counterexample: with totalIterations = 9 the period is
P = ceil(9/4) = 3, and at iteration 1 the implemented weight is 1 (the ramp
denominator is the floor division P // 2 = 1) while the claimed formula with
the exact ramp denominator P/2 = 1.5 gives 3/4; the claimed formula is
therefore not the implemented weight. -/
theorem cyclical_schedule_formula_counterexample :
    cyclic_cosine_schedule 1 (cycleLength 9) = 1 ∧
    cyclicalSpecWeight 1 (cycleLength 9) = 3 / 4 ∧
    cyclic_cosine_schedule 1 (cycleLength 9) ≠ cyclicalSpecWeight 1 (cycleLength 9) := by
  have hP : cycleLength 9 = 3 := by decide
  have h1 : cyclic_cosine_schedule 1 (cycleLength 9) = 1 := by
    rw [hP]
    unfold cyclic_cosine_schedule
    norm_num [Real.cos_two_pi]
  have h2 : cyclicalSpecWeight 1 (cycleLength 9) = 3 / 4 := by
    rw [hP]
    unfold cyclicalSpecWeight
    have ha : (((1 % 3 : ℕ) : ℝ)) / (((3:ℕ) : ℝ) / 2) = 2 / 3 := by norm_num
    rw [ha]
    have hb : min (1:ℝ) (2/3) = 2/3 := by norm_num [min_def]
    rw [hb]
    have hc : (1 + (2:ℝ)/3) * Real.pi = 2 * Real.pi - Real.pi / 3 := by ring
    rw [hc, Real.cos_two_pi_sub, Real.cos_pi_div_three]
    norm_num
  refine ⟨h1, h2, ?_⟩
  rw [h1, h2]
  norm_num

/-- C3 amended: the cyclical schedule has period P = ceil(totalIterations/4),
and (for P at least 2, i.e. totalIterations at least 5, so that the Python
division is defined) its weight is
0.5*(1 + cos((1 + min(1, (t mod P)/⌊P/2⌋))*pi)) — the ramp denominator is the
floor division P // 2, not P/2 — and the schedule is periodic:
weight(t) = weight(t+P) for all t. -/
theorem cyclical_schedule_floor_formula_and_periodicity (total t : ℕ)
    (h : 5 ≤ total) :
    2 ≤ cycleLength total ∧
    cyclic_cosine_schedule t (cycleLength total) =
      0.5 * (1 + Real.cos ((1 + min 1 (((t % cycleLength total : ℕ) : ℝ) /
        ((cycleLength total / 2 : ℕ) : ℝ))) * Real.pi)) ∧
    cyclic_cosine_schedule (t + cycleLength total) (cycleLength total) =
      cyclic_cosine_schedule t (cycleLength total) := by
  refine ⟨?_, rfl, ?_⟩
  · unfold cycleLength
    omega
  · unfold cyclic_cosine_schedule
    rw [Nat.add_mod_right]

/-- Witness for the amended C3 theorem at totalIterations = 9, t = 2. -/
theorem cyclical_schedule_floor_formula_and_periodicity_witness :
    2 ≤ cycleLength 9 ∧
    cyclic_cosine_schedule 2 (cycleLength 9) =
      0.5 * (1 + Real.cos ((1 + min 1 (((2 % cycleLength 9 : ℕ) : ℝ) /
        ((cycleLength 9 / 2 : ℕ) : ℝ))) * Real.pi)) ∧
    cyclic_cosine_schedule (2 + cycleLength 9) (cycleLength 9) =
      cyclic_cosine_schedule 2 (cycleLength 9) :=
  cyclical_schedule_floor_formula_and_periodicity 9 2 (by norm_num)

/-- C10 counterexample: a 3-row node feature matrix with max_num_nodes = 2
does not make the padding computation fail — the negative pad count yields an
empty padding list, whose shape-(0,) tensor `torch.cat` skips — so the
transform silently returns the oversized 3-row matrix. -/
theorem addNodeAttributeMatrix_oversize_counterexample :
    AddNodeAttributeMatrix.forward 2 [[1,0],[0,1],[1,0]] =
      .ok [[1,0],[0,1],[1,0]] ∧
    2 < ([[1,0],[0,1],[1,0]] : List (List ℚ)).length := by
  exact ⟨by decide, by decide⟩

/-- C10 amended: for a rectangular node feature matrix, when the node count
is at most max_num_nodes the transform returns a matrix with exactly
max_num_nodes rows; when the node count exceeds max_num_nodes the negative
pad count produces an empty padding list which torch.cat skips, so the
transform neither fails nor truncates: it silently returns the oversized
input unchanged. -/
theorem addNodeAttributeMatrix_row_count (max_num_nodes : ℕ)
    (x : List (List ℚ))
    (hrect : ∀ r ∈ x, r.length = (x.headD []).length) :
    (x.length ≤ max_num_nodes →
      ∃ y, AddNodeAttributeMatrix.forward max_num_nodes x = .ok y ∧
        y.length = max_num_nodes) ∧
    (max_num_nodes < x.length →
      AddNodeAttributeMatrix.forward max_num_nodes x = .ok x) := by
  have htn : ((max_num_nodes : ℤ) - (x.length : ℤ)).toNat
      = max_num_nodes - x.length := Int.toNat_sub max_num_nodes x.length
  constructor
  · intro hle
    by_cases heq : x.length = max_num_nodes
    · refine ⟨x, ?_, heq⟩
      simp only [AddNodeAttributeMatrix.forward, htn]
      have : max_num_nodes - x.length = 0 := by omega
      rw [this]
      simp
    · have hlt : x.length < max_num_nodes := lt_of_le_of_ne hle heq
      refine ⟨x ++ List.replicate (max_num_nodes - x.length)
        (1 :: List.replicate ((x.headD []).length - 1) 0), ?_, ?_⟩
      · simp only [AddNodeAttributeMatrix.forward, htn]
        have hne : ¬(List.replicate (max_num_nodes - x.length)
            ((1:ℚ) :: List.replicate ((x.headD []).length - 1) 0)).isEmpty = true := by
          simp [List.isEmpty_iff, List.replicate_eq_nil_iff]
          omega
        rw [if_neg hne, if_pos]
        simp only [List.all_eq_true, decide_eq_true_eq]
        exact hrect
      · simp
        omega
  · intro hgt
    simp only [AddNodeAttributeMatrix.forward, htn]
    have : max_num_nodes - x.length = 0 := by omega
    rw [this]
    simp

/-- Witness for the amended C10 theorem: a rectangular 2-row matrix padded
to 4 rows. -/
theorem addNodeAttributeMatrix_row_count_witness :
    ∃ y, AddNodeAttributeMatrix.forward 4 [[1,0],[0,1]] = .ok y ∧
      y.length = 4 :=
  (addNodeAttributeMatrix_row_count 4 [[1,0],[0,1]] (by decide)).1 (by decide)

/-- C9: qm9_pre_filter accepts exactly when the trial conversion of the graph
to a sanitized molecule with hydrogen included succeeds; any exception raised
during the trial conversion is swallowed and becomes rejection (false), never
a propagated fatal error. -/
theorem qm9_pre_filter_accepts_iff_conversion_ok
    (sanitize : RWMol → Except PyError Unit) (data : MolGraphData) :
    (qm9_pre_filter sanitize data = true ↔
      ∃ m, graph_to_mol sanitize data true true = .ok m) ∧
    (∀ e : PyError, graph_to_mol sanitize data true true = .error e →
      qm9_pre_filter sanitize data = false) := by
  cases h : graph_to_mol sanitize data true true with
  | ok m =>
      refine ⟨⟨fun _ => ⟨m, rfl⟩, fun _ => ?_⟩, fun e he => by simp_all⟩
      simp [qm9_pre_filter, h]
  | error e =>
      refine ⟨⟨fun hacc => ?_, fun ⟨m, hm⟩ => by simp_all⟩, fun e he => ?_⟩
      · simp [qm9_pre_filter, h] at hacc
      · simp [qm9_pre_filter, h]

/-- Witness for the C9 theorem: on a concrete 4-atom graph, a failing
sanitization is swallowed into rejection, and a succeeding one is accepted. -/
theorem qm9_pre_filter_accepts_iff_conversion_ok_witness :
    qm9_pre_filter (fun _ => .error .valenceError)
      ⟨[[0,1,0,0,0],[1,0,0,0,0]], [(0,1),(1,0)], [[1,0,0,0],[1,0,0,0]]⟩ = false ∧
    qm9_pre_filter (fun _ => .ok ())
      ⟨[[0,1,0,0,0],[1,0,0,0,0]], [(0,1),(1,0)], [[1,0,0,0],[1,0,0,0]]⟩ = true :=
  ⟨(qm9_pre_filter_accepts_iff_conversion_ok (fun _ => .error .valenceError)
      ⟨[[0,1,0,0,0],[1,0,0,0,0]], [(0,1),(1,0)], [[1,0,0,0],[1,0,0,0]]⟩).2
      PyError.valenceError (by decide),
   (qm9_pre_filter_accepts_iff_conversion_ok (fun _ => .ok ())
      ⟨[[0,1,0,0,0],[1,0,0,0,0]], [(0,1),(1,0)], [[1,0,0,0],[1,0,0,0]]⟩).1.mpr
      ⟨⟨[6, 1], {((0, 1), 0)}⟩, by decide⟩⟩

/-- A present key is found at its table position (offset by the enumeration
start `k`). -/
theorem lookupIndexAux_mem (tbl : List String) (nm : String) (hm : nm ∈ tbl) :
    ∀ k, lookupIndexAux tbl nm k = .ok (k + tableIndexOf tbl nm) := by
  induction tbl with
  | nil => cases hm
  | cons t ts ih =>
      intro k
      by_cases ht : t = nm
      · simp [lookupIndexAux, tableIndexOf, ht]
      · have hts : nm ∈ ts := by
          rcases List.mem_cons.mp hm with h | h
          · exact absurd h.symm ht
          · exact h
        simp only [lookupIndexAux, tableIndexOf, if_neg ht]
        rw [ih hts (k + 1)]
        congr 1
        omega

/-- A missing key raises `KeyError` whatever the enumeration start. -/
theorem lookupIndexAux_not_mem (tbl : List String) (nm : String)
    (hm : nm ∉ tbl) : ∀ k, lookupIndexAux tbl nm k = .error .keyError := by
  induction tbl with
  | nil => intro k; rfl
  | cons t ts ih =>
      intro k
      have ht : ¬(t = nm) := fun h => hm (h ▸ List.mem_cons_self t ts)
      simp only [lookupIndexAux, if_neg ht]
      exact ih (fun h => hm (List.mem_cons_of_mem t h)) (k + 1)

/-- When every requested name is known, the index list is the table position
of each requested name, in request order. -/
theorem selectIndices_all_mem (properties : List String)
    (h : ∀ nm ∈ properties, nm ∈ property_names) :
    SelectQM9TargetProperties.indices properties =
      .ok (properties.map (fun nm => tableIndexOf property_names nm)) := by
  induction properties with
  | nil => rfl
  | cons p ps ih =>
      have hp : p ∈ property_names := h p (List.mem_cons_self p ps)
      have hps : ∀ nm ∈ ps, nm ∈ property_names :=
        fun nm hnm => h nm (List.mem_cons_of_mem p hnm)
      simp only [SelectQM9TargetProperties.indices] at ih ⊢
      rw [List.mapM_cons, lookupIndexAux_mem property_names p hp 0, ih hps]
      simp only [Nat.zero_add, List.map_cons]
      rfl

/-- If any requested name is unknown, index construction raises `KeyError`. -/
theorem selectIndices_unknown (properties : List String) (nm : String)
    (hmem : nm ∈ properties) (hnot : nm ∉ property_names) :
    SelectQM9TargetProperties.indices properties = .error .keyError := by
  induction properties with
  | nil => cases hmem
  | cons p ps ih =>
      simp only [SelectQM9TargetProperties.indices] at ih ⊢
      rw [List.mapM_cons]
      rcases List.mem_cons.mp hmem with h | h
      · rw [← h, lookupIndexAux_not_mem property_names nm hnot 0]
        rfl
      · by_cases hp : p ∈ property_names
        · rw [lookupIndexAux_mem property_names p hp 0, ih h]
          rfl
        · rw [lookupIndexAux_not_mem property_names p hp 0]
          rfl

/-- C8: SelectProperties is deterministic — the same requested name list on
the same target row yields the identical output — the output column order
follows the order of the requested names via their canonical table
positions, and any unknown requested name fails fatally (KeyError) at
construction. -/
theorem selectProperties_deterministic_ordered_fatal
    (properties : List String) (y : List ℚ) :
    selectQM9TargetProperties properties y =
      selectQM9TargetProperties properties y ∧
    ((∀ nm ∈ properties, nm ∈ property_names) →
      selectQM9TargetProperties properties y =
        .ok (properties.map
          (fun nm => y.getD (tableIndexOf property_names nm) 0))) ∧
    (∀ nm ∈ properties, nm ∉ property_names →
      selectQM9TargetProperties properties y = .error .keyError) := by
  refine ⟨rfl, fun h => ?_, fun nm hmem hnot => ?_⟩
  · simp only [selectQM9TargetProperties, selectIndices_all_mem properties h]
    simp [SelectQM9TargetProperties.forward, List.map_map]
  · simp only [selectQM9TargetProperties,
      selectIndices_unknown properties nm hmem hnot]
    rfl

/-- Witness for the C8 theorem: selecting ["homo", "lumo"] from the row
0..18 yields the columns at canonical positions 2 and 3, in request order. -/
theorem selectProperties_deterministic_ordered_fatal_witness :
    selectQM9TargetProperties ["homo", "lumo"]
      ((List.range 19).map (fun i => (i : ℚ))) = .ok [2, 3] := by
  have h := (selectProperties_deterministic_ordered_fatal ["homo", "lumo"]
    ((List.range 19).map (fun i => (i : ℚ)))).2.1 (by decide)
  rw [h]
  decide

/-- Splitting a list by a predicate splits its length. -/
theorem length_filter_add_length_filter_not {α : Type _} (l : List α)
    (p : α → Bool) :
    (l.filter p).length + (l.filter (fun a => !(p a))).length = l.length := by
  induction l with
  | nil => rfl
  | cons a as ih =>
      by_cases h : p a
      · simp [List.filter_cons, h, ← ih]
        omega
      · simp [List.filter_cons, h, ← ih]
        omega

/-- `cumsumAux` preserves length. -/
theorem cumsumAux_length (l : List ℤ) : ∀ s, (cumsumAux s l).length = l.length := by
  induction l with
  | nil => intro s; rfl
  | cons a as ih => intro s; simp [cumsumAux, ih]

/-- Entry `u` of a running sum is the offset plus the sum of the first
`u + 1` entries. -/
theorem cumsumAux_getElem? (l : List ℤ) :
    ∀ s u, u < l.length →
      (cumsumAux s l)[u]? = some (s + (l.take (u + 1)).sum) := by
  induction l with
  | nil => intro s u hu; cases hu
  | cons a as ih =>
      intro s u hu
      cases u with
      | zero => simp [cumsumAux]
      | succ v =>
          have hv : v < as.length := by simpa using hu
          simp only [cumsumAux, List.getElem?_cons_succ, List.take_succ_cons,
            List.sum_cons]
          rw [ih (s + a) v hv]
          congr 1
          omega

/-- Summing a prefix of 0/1 indicator values counts the satisfying entries
of that prefix. -/
theorem sum_take_map_indicator {α : Type _} (l : List α) (p : α → Bool)
    (k : ℕ) :
    ((l.map (fun a => if p a then (1 : ℤ) else 0)).take k).sum
      = (((l.take k).filter p).length : ℤ) := by
  induction l generalizing k with
  | nil => simp
  | cons a as ih =>
      cases k with
      | zero => simp
      | succ m =>
          by_cases h : p a
          · simp [List.take_succ_cons, List.filter_cons, h, ih m]
            omega
          · simp [List.take_succ_cons, List.filter_cons, h, ih m]

/-- `contains` is false exactly on non-members. -/
theorem contains_eq_false_iff (l : List ℕ) (a : ℕ) :
    l.contains a = false ↔ a ∉ l := by
  rw [← Bool.not_eq_true]
  exact not_congr List.elem_iff

/-- Node membership in `nodes_to_remove` for an in-range index is exactly
being a hydrogen row. -/
theorem mem_nodes_to_remove_iff (x : List (List ℚ)) (i : ℕ)
    (hi : i < x.length) :
    i ∈ nodes_to_remove x ↔ torchArgmax (x.getD i []) = 0 := by
  simp [nodes_to_remove, List.mem_filter, List.mem_range, hi]

/-- C6: for a graph with k hydrogen rows, DropHydrogen keeps exactly N - k
nodes; an edge survives iff both endpoints are non-hydrogen; the edge count
drops by exactly the number of edges incident to a removed node; and every
index is remapped to (count of kept nodes at or before it) - 1. -/
theorem dropHydrogen_node_edge_consistency (g : MolGraphData)
    (hvalid : ∀ e ∈ g.edge_index, e.1 < g.x.length ∧ e.2 < g.x.length) :
    (DropQM9Hydrogen.forward g).x.length =
      g.x.length - (g.x.filter (fun row => torchArgmax row = 0)).length ∧
    (∀ e ∈ g.edge_index, (edgeKept g.x e = true ↔
      (torchArgmax (g.x.getD e.1 []) ≠ 0 ∧
       torchArgmax (g.x.getD e.2 []) ≠ 0))) ∧
    (DropQM9Hydrogen.forward g).edge_index =
      (g.edge_index.filter (fun e => edgeKept g.x e)).map
        (fun e => ((index_mapping g.x).getD e.1 0,
                   (index_mapping g.x).getD e.2 0)) ∧
    (DropQM9Hydrogen.forward g).edge_index.length =
      g.edge_index.length -
        (g.edge_index.filter (fun e => !(edgeKept g.x e))).length ∧
    (∀ u, u < g.x.length →
      (index_mapping g.x).getD u 0 =
        (((g.x.take (u + 1)).filter
            (fun row => torchArgmax row ≠ 0)).length : ℤ) - 1) := by
  refine ⟨?_, ?_, rfl, ?_, ?_⟩
  · have hsplit := length_filter_add_length_filter_not g.x
      (fun row => decide (torchArgmax row = 0))
    have hco : g.x.filter (fun row => !(decide (torchArgmax row = 0)))
        = g.x.filter (fun row => torchArgmax row ≠ 0) := by
      apply List.filter_congr
      intro row _
      simp
    rw [hco] at hsplit
    simp only [DropQM9Hydrogen.forward, List.length_map]
    omega
  · intro e he
    obtain ⟨h1, h2⟩ := hvalid e he
    simp only [edgeKept, Bool.and_eq_true, Bool.not_eq_true']
    rw [contains_eq_false_iff, contains_eq_false_iff,
      mem_nodes_to_remove_iff g.x e.1 h1, mem_nodes_to_remove_iff g.x e.2 h2]
  · have hsplit := length_filter_add_length_filter_not g.edge_index
      (fun e => edgeKept g.x e)
    simp only [DropQM9Hydrogen.forward, List.length_map]
    omega
  · intro u hu
    have hlen : u < ((keepMask g.x).map
        (fun b => if b then (1 : ℤ) else 0)).length := by
      simpa [keepMask] using hu
    simp only [index_mapping, cumsum]
    rw [List.getD_eq_getElem?_getD, List.getElem?_map,
      cumsumAux_getElem? _ 0 u (by simpa using hlen)]
    simp only [Option.map_some, Option.getD_some, zero_add]
    have hmm : (keepMask g.x).map (fun b => if b then (1 : ℤ) else 0)
        = g.x.map (fun row =>
            if (fun r => decide (torchArgmax r ≠ 0)) row then (1 : ℤ) else 0) := by
      rw [keepMask, List.map_map]
      rfl
    rw [hmm, sum_take_map_indicator g.x (fun r => decide (torchArgmax r ≠ 0)) (u + 1)]
    simp

/-- Witness for the C6 theorem on the 4-node example graph (C, C, O, H with
bonds C-C, C-O, C-H in both directions): one hydrogen row is dropped and
index 3 remaps to (kept count at or before 3) - 1. -/
theorem dropHydrogen_node_edge_consistency_witness :
    (DropQM9Hydrogen.forward
      ⟨[[0,1,0,0,0],[0,1,0,0,0],[0,0,0,1,0],[1,0,0,0,0]],
       [(0,1),(1,0),(0,2),(2,0),(0,3),(3,0)],
       [[0,1,0,0],[0,1,0,0],[1,0,0,0],[1,0,0,0],[1,0,0,0],[1,0,0,0]]⟩).x.length =
      ([[0,1,0,0,0],[0,1,0,0,0],[0,0,0,1,0],[1,0,0,0,0]] : List (List ℚ)).length -
      (([[0,1,0,0,0],[0,1,0,0,0],[0,0,0,1,0],[1,0,0,0,0]] : List (List ℚ)).filter
        (fun row => torchArgmax row = 0)).length ∧
    (index_mapping [[0,1,0,0,0],[0,1,0,0,0],[0,0,0,1,0],[1,0,0,0,0]]).getD 3 0 =
      ((([[0,1,0,0,0],[0,1,0,0,0],[0,0,0,1,0],[1,0,0,0,0]] : List (List ℚ)).take 4).filter
          (fun row => torchArgmax row ≠ 0)).length - 1 :=
  ⟨(dropHydrogen_node_edge_consistency
      ⟨[[0,1,0,0,0],[0,1,0,0,0],[0,0,0,1,0],[1,0,0,0,0]],
       [(0,1),(1,0),(0,2),(2,0),(0,3),(3,0)],
       [[0,1,0,0],[0,1,0,0],[1,0,0,0],[1,0,0,0],[1,0,0,0],[1,0,0,0]]⟩
      (by decide)).1,
   (dropHydrogen_node_edge_consistency
      ⟨[[0,1,0,0,0],[0,1,0,0,0],[0,0,0,1,0],[1,0,0,0,0]],
       [(0,1),(1,0),(0,2),(2,0),(0,3),(3,0)],
       [[0,1,0,0],[0,1,0,0],[1,0,0,0],[1,0,0,0],[1,0,0,0],[1,0,0,0]]⟩
      (by decide)).2.2.2.2 3 (by decide)⟩

/-- C1 counterexample: for the 3-node path graph (edges in both directions)
encoded with max_num_nodes = 9, the packed adjacency diagonal contains 3
ones, not 9: `add_self_loops` is called without a node count, so self-loops
are added only for inferred node indices (max edge endpoint + 1), never for
pad slots. -/
theorem addAdjacency_diagonal_counterexample :
    (packedDiagonal 9 (AddAdjacencyMatrix.forward 9
      [(0,1),(1,0),(1,2),(2,1)])).length = 9 ∧
    (packedDiagonal 9 (AddAdjacencyMatrix.forward 9
      [(0,1),(1,0),(1,2),(2,1)])).count 1 = 3 ∧
    (packedDiagonal 9 (AddAdjacencyMatrix.forward 9
      [(0,1),(1,0),(1,2),(2,1)])).count 1 ≠ 9 :=
  ⟨by decide, by decide, by decide⟩

/-- Zipping a list with its image and keeping the image at selected
positions is filtering then mapping. -/
theorem zip_map_filterMap_diag (l : List (ℕ × ℕ)) (f : ℕ × ℕ → ℚ) :
    ((l.zip (l.map f)).filterMap
      (fun pv => if pv.1.1 = pv.1.2 then some pv.2 else none)) =
    (l.filter (fun p => p.1 = p.2)).map f := by
  induction l with
  | nil => rfl
  | cons a t ih =>
      by_cases h : a.1 = a.2
      · simp [List.filterMap_cons, List.filter_cons, h, ih]
      · simp [List.filterMap_cons, List.filter_cons, h, ih]

/-- Filtering distributes over `flatMap`. -/
theorem filter_flatMap {α β : Type _} (l : List α) (g : α → List β)
    (p : β → Bool) :
    (l.flatMap g).filter p = l.flatMap (fun a => (g a).filter p) := by
  induction l with
  | nil => rfl
  | cons a t ih => simp [List.flatMap_cons, List.filter_append, ih]

/-- Dropping a prefix of `range n` leaves the tail interval. -/
theorem range_drop (n : ℕ) : ∀ i, (List.range n).drop i = List.range' i (n - i) := by
  induction n with
  | zero => intro i; simp
  | succ m ih =>
      intro i
      by_cases h : i ≤ m
      · rw [List.range_succ, List.drop_append_of_le_length (by simpa using h), ih i]
        have h2 : m + 1 - i = (m - i) + 1 := by omega
        rw [h2, List.range'_1_concat]
        have h3 : i + (m - i) = m := by omega
        rw [h3]
      · have h1 : (List.range (m + 1)).length ≤ i := by
          simpa using h
        rw [List.drop_eq_nil_of_le h1]
        have h2 : m + 1 - i = 0 := by omega
        rw [h2]
        rfl

/-- In the interval starting at `i`, only the head equals `i`. -/
theorem range'_filter_head_eq (i : ℕ) :
    ∀ k, (List.range' i k).filter (fun j => decide (i = j)) =
      if 0 < k then [i] else [] := by
  intro k
  cases k with
  | zero => rfl
  | succ m =>
      rw [List.range'_succ]
      simp only [List.filter_cons, decide_eq_true_eq, if_pos rfl]
      have hnil : (List.range' (i + 1) m).filter (fun j => decide (i = j)) = [] := by
        rw [List.filter_eq_nil_iff]
        intro j hj
        have := (List.mem_range'_1.mp hj).1
        simp only [decide_eq_true_eq]
        omega
      rw [hnil]
      simp

/-- The diagonal positions of the inclusive upper triangle are exactly the
diagonal pairs in row order. -/
theorem triuEntries_filter_diag (n : ℕ) :
    (triuEntries n).filter (fun p => decide (p.1 = p.2)) =
      (List.range n).map (fun i => (i, i)) := by
  rw [triuEntries, filter_flatMap]
  have hpt : ∀ i ∈ List.range n,
      (((List.range n).drop i).map (fun j => (i, j))).filter
        (fun p => decide (p.1 = p.2)) = [(i, i)] := by
    intro i hi
    have hin : i < n := List.mem_range.mp hi
    rw [List.filter_map]
    have hco : ((fun p : ℕ × ℕ => decide (p.1 = p.2)) ∘ (fun j => (i, j)))
        = fun j => decide (i = j) := rfl
    rw [hco, range_drop n i, range'_filter_head_eq i (n - i),
      if_pos (by omega)]
    rfl
  calc (List.range n).flatMap (fun i =>
          (((List.range n).drop i).map (fun j => (i, j))).filter
            (fun p => decide (p.1 = p.2)))
      = (List.range n).flatMap (fun i => [(i, i)]) := by
        rw [List.flatMap_def, List.flatMap_def]
        rw [List.map_congr_left hpt]
    _ = (List.range n).map (fun i => (i, i)) := by
        induction (List.range n) with
        | nil => rfl
        | cons a t ih => simp [List.flatMap_cons, ih]

/-- The running maximum over in-range endpoints stays in range. -/
theorem foldl_max_endpoint_lt (n : ℕ) (E : List (ℕ × ℕ))
    (hb : ∀ e ∈ E, e.1 < n ∧ e.2 < n) :
    ∀ a, a < n → E.foldl (fun m e => max m (max e.1 e.2)) a < n := by
  induction E with
  | nil => intro a ha; simpa using ha
  | cons e t ih =>
      intro a ha
      have he := hb e (List.mem_cons_self e t)
      have ht : ∀ x ∈ t, x.1 < n ∧ x.2 < n :=
        fun x hx => hb x (List.mem_cons_of_mem e hx)
      rw [List.foldl_cons]
      exact ih ht _ (by omega)

/-- The inferred node count never exceeds a bound on the endpoints. -/
theorem maybe_num_nodes_le (n : ℕ) (E : List (ℕ × ℕ))
    (hb : ∀ e ∈ E, e.1 < n ∧ e.2 < n) : maybe_num_nodes E ≤ n := by
  cases E with
  | nil => exact Nat.zero_le n
  | cons e t =>
      have h0 : 0 < n := by
        have := hb e (List.mem_cons_self e t)
        omega
      have := foldl_max_endpoint_lt n (e :: t) hb 0 h0
      simp only [maybe_num_nodes]
      omega

/-- Counting a diagonal pair among the appended self-loops. -/
theorem count_self_loops (M i : ℕ) :
    List.count (i, i) ((List.range M).map (fun j => (j, j))) =
      if i < M then 1 else 0 := by
  induction M with
  | zero => simp
  | succ m ih =>
      rw [List.range_succ, List.map_append, List.count_append, ih]
      by_cases h : i = m
      · subst h
        simp [List.count_cons]
      · have hne : ¬((i, i) = (m, m)) := by
          simp [Prod.ext_iff, h]
        by_cases hlt : i < m
        · have h1 : i < m + 1 := by omega
          simp [List.count_cons, hne, hlt, h1]
        · have h1 : ¬(i < m + 1) := by omega
          simp [List.count_cons, hne, hlt, h1]

/-- C1 amended: `add_self_loops` without a node count adds self-loops only at
indices 0..M-1 where M = (max endpoint in edge_index) + 1 (0 for an empty
edge list); hence, for a loop-free graph whose endpoints are below
max_num_nodes, the packed adjacency diagonal is 1 exactly at the first M
positions and 0 at every later (pad) position. -/
theorem addAdjacency_diagonal_marks_inferred_nodes (n : ℕ)
    (E : List (ℕ × ℕ)) (hloop : ∀ e ∈ E, e.1 ≠ e.2)
    (hb : ∀ e ∈ E, e.1 < n ∧ e.2 < n) :
    packedDiagonal n (AddAdjacencyMatrix.forward n E) =
      (List.range n).map
        (fun i => if i < maybe_num_nodes E then (1 : ℚ) else 0) := by
  have hM := maybe_num_nodes_le n E hb
  simp only [AddAdjacencyMatrix.forward, packedDiagonal]
  rw [zip_map_filterMap_diag, triuEntries_filter_diag, List.map_map]
  apply List.map_congr_left
  intro i _
  simp only [Function.comp, to_dense_adj]
  have hfe : (add_self_loops E).filter
      (fun e => e.1 < n && e.2 < n) = add_self_loops E := by
    rw [List.filter_eq_self]
    intro e he
    rcases List.mem_append.mp he with h | h
    · have := hb e h
      simp only [Bool.and_eq_true, decide_eq_true_eq]
      omega
    · obtain ⟨j, hj, hje⟩ := List.mem_map.mp h
      have hjM : j < maybe_num_nodes E := List.mem_range.mp hj
      rw [← hje]
      simp only [Bool.and_eq_true, decide_eq_true_eq]
      omega
  rw [hfe, add_self_loops, List.count_append]
  have hcE : List.count (i, i) E = 0 := by
    rw [List.count_eq_zero]
    intro hm
    exact hloop (i, i) hm rfl
  rw [hcE, count_self_loops (maybe_num_nodes E) i]
  by_cases h : i < maybe_num_nodes E
  · rw [if_pos h, if_pos h]
    norm_num
  · rw [if_neg h, if_neg h]
    norm_num

/-- Witness for the amended C1 theorem: the 3-node path graph with
max_num_nodes = 9 marks exactly the first three diagonal slots. -/
theorem addAdjacency_diagonal_marks_inferred_nodes_witness :
    packedDiagonal 9 (AddAdjacencyMatrix.forward 9 [(0,1),(1,0),(1,2),(2,1)]) =
      [1, 1, 1, 0, 0, 0, 0, 0, 0] :=
  (addAdjacency_diagonal_marks_inferred_nodes 9 [(0,1),(1,0),(1,2),(2,1)]
    (by decide) (by decide)).trans (by decide)

/-- Packing after reconstruction recovers the packed inclusive triangle:
on the triangle the scatter is the stored value, the mirrored term is zero
off the diagonal, and the doubled diagonal is halved back. -/
theorem packTriuLe_adjFull {n : ℕ} (v : TriuLe n → ℚ) :
    packTriuLe (adjFull v) = v := by
  funext q
  obtain ⟨⟨i, j⟩, hle⟩ := q
  simp only [packTriuLe, adjFull, scatterTriuLe]
  by_cases hij : i = j
  · subst hij
    rw [if_pos rfl, dif_pos hle]
    ring
  · have hlt : i < j := lt_of_le_of_ne hle hij
    rw [if_neg hij, dif_pos hle, dif_neg (not_le.mpr hlt)]
    ring

/-- Packing after reconstruction recovers the packed strict triangle. -/
theorem packTriuLt_edgeFull {n : ℕ} (w : TriuLt n → Fin 4 → ℚ) :
    packTriuLt (edgeFull w) = w := by
  funext q c
  obtain ⟨⟨i, j⟩, hlt⟩ := q
  simp only [packTriuLt, edgeFull, scatterTriuLt]
  rw [dif_pos hlt, dif_neg (not_lt.mpr (le_of_lt hlt))]
  ring

/-- The reconstructed adjacency matrix is symmetric. -/
theorem adjFull_symm {n : ℕ} (v : TriuLe n → ℚ) (i j : Fin n) :
    adjFull v i j = adjFull v j i := by
  simp only [adjFull]
  by_cases hij : i = j
  · subst hij; rfl
  · rw [if_neg hij, if_neg (fun h => hij h.symm)]
    ring

/-- The reconstructed edge tensor is symmetric in the node indices. -/
theorem edgeFull_symm {n : ℕ} (w : TriuLt n → Fin 4 → ℚ) (i j : Fin n)
    (c : Fin 4) : edgeFull w i j c = edgeFull w j i c := by
  simp only [edgeFull]
  ring

/-- The reconstructed edge tensor vanishes on the diagonal. -/
theorem edgeFull_diag_zero {n : ℕ} (w : TriuLt n → Fin 4 → ℚ) (i : Fin n)
    (c : Fin 4) : edgeFull w i i c = 0 := by
  simp [edgeFull, scatterTriuLt]

/-- Reconstruction inverts packing on symmetric matrices. -/
theorem adjFull_packTriuLe {n : ℕ} (m : Fin n → Fin n → ℚ)
    (hsymm : ∀ i j, m i j = m j i) : adjFull (packTriuLe m) = m := by
  funext i j
  simp only [adjFull, scatterTriuLe, packTriuLe]
  rcases lt_trichotomy i j with h | h | h
  · rw [if_neg (ne_of_lt h), dif_pos (le_of_lt h), dif_neg (not_le.mpr h)]
    ring
  · subst h
    rw [if_pos rfl, dif_pos (le_refl i)]
    ring
  · rw [if_neg (ne_of_gt h), dif_neg (not_le.mpr h), dif_pos (le_of_lt h)]
    rw [hsymm i j]
    ring

/-- Reconstruction inverts packing on symmetric diagonal-free edge tensors. -/
theorem edgeFull_packTriuLt {n : ℕ} (m : Fin n → Fin n → Fin 4 → ℚ)
    (hsymm : ∀ i j c, m i j c = m j i c)
    (hdiag : ∀ i c, m i i c = 0) : edgeFull (packTriuLt m) = m := by
  funext i j c
  simp only [edgeFull, scatterTriuLt, packTriuLt]
  rcases lt_trichotomy i j with h | h | h
  · rw [dif_pos h, dif_neg (not_lt.mpr (le_of_lt h))]
    ring
  · subst h
    rw [dif_neg (lt_irrefl i), hdiag i c]
    ring
  · rw [dif_neg (not_lt.mpr (le_of_lt h)), dif_pos h, hsymm i j c]
    ring

/-- C4: applying the permutation augmenter with the identity permutation
returns the packed tensors unchanged; applying it with a permutation p and
then with its inverse reproduces the original packed tensors exactly; and
the reconstruction step (scatter the inclusive upper triangle, add the
transpose, halve the diagonal) followed by re-packing is the identity on
packed tensors. -/
theorem randomPermutation_identity_and_inverse {n F : ℕ}
    (d : PackedGraphTensors n F) (p : Equiv.Perm (Fin n)) :
    RandomPermutation.forward (Equiv.refl (Fin n)) d = d ∧
    RandomPermutation.forward p.symm (RandomPermutation.forward p d) = d ∧
    packTriuLe (adjFull d.adj_triu_mat) = d.adj_triu_mat ∧
    packTriuLt (edgeFull d.edge_triu_mat) = d.edge_triu_mat := by
  refine ⟨?_, ?_, packTriuLe_adjFull d.adj_triu_mat,
    packTriuLt_edgeFull d.edge_triu_mat⟩
  · ext : 1
    · show packTriuLe (permuteMat (Equiv.refl (Fin n))
        (adjFull d.adj_triu_mat)) = d.adj_triu_mat
      have h : permuteMat (Equiv.refl (Fin n)) (adjFull d.adj_triu_mat)
          = adjFull d.adj_triu_mat := rfl
      rw [h, packTriuLe_adjFull]
    · show permuteRows (Equiv.refl (Fin n)) d.node_mat = d.node_mat
      rfl
    · show packTriuLt (permuteEdge (Equiv.refl (Fin n))
        (edgeFull d.edge_triu_mat)) = d.edge_triu_mat
      have h : permuteEdge (Equiv.refl (Fin n)) (edgeFull d.edge_triu_mat)
          = edgeFull d.edge_triu_mat := rfl
      rw [h, packTriuLt_edgeFull]
  · ext : 1
    · show packTriuLe (permuteMat p.symm (adjFull (packTriuLe
        (permuteMat p (adjFull d.adj_triu_mat))))) = d.adj_triu_mat
      have hsymm : ∀ i j, permuteMat p (adjFull d.adj_triu_mat) i j
          = permuteMat p (adjFull d.adj_triu_mat) j i :=
        fun i j => adjFull_symm d.adj_triu_mat (p i) (p j)
      rw [adjFull_packTriuLe _ hsymm]
      have hinv : permuteMat p.symm (permuteMat p (adjFull d.adj_triu_mat))
          = adjFull d.adj_triu_mat := by
        funext i j
        simp [permuteMat]
      rw [hinv, packTriuLe_adjFull]
    · show permuteRows p.symm (permuteRows p d.node_mat) = d.node_mat
      funext i
      simp [permuteRows]
    · show packTriuLt (permuteEdge p.symm (edgeFull (packTriuLt
        (permuteEdge p (edgeFull d.edge_triu_mat))))) = d.edge_triu_mat
      have hsymm : ∀ i j c, permuteEdge p (edgeFull d.edge_triu_mat) i j c
          = permuteEdge p (edgeFull d.edge_triu_mat) j i c :=
        fun i j c => edgeFull_symm d.edge_triu_mat (p i) (p j) c
      have hdiag : ∀ i c, permuteEdge p (edgeFull d.edge_triu_mat) i i c = 0 :=
        fun i c => edgeFull_diag_zero d.edge_triu_mat (p i) c
      rw [edgeFull_packTriuLt _ hsymm hdiag]
      have hinv : permuteEdge p.symm (permuteEdge p (edgeFull d.edge_triu_mat))
          = edgeFull d.edge_triu_mat := by
        funext i j c
        simp [permuteEdge]
      rw [hinv, packTriuLt_edgeFull]

/-- Basic per-sample counters: attempts are bounded by the budget, the
connected count by the attempts, the valid count is zero or one, and a
SMILES is produced exactly when the sample decoded a valid molecule. -/
theorem decodeLoop_counts (att : ℕ → DecodeAttempt) :
    ∀ (rem idx : ℕ),
      (decodeLoop att idx rem).attempts ≤ rem ∧
      (decodeLoop att idx rem).connected ≤ (decodeLoop att idx rem).attempts ∧
      (decodeLoop att idx rem).valid ≤ (decodeLoop att idx rem).connected ∧
      (decodeLoop att idx rem).valid ≤ 1 ∧
      ((decodeLoop att idx rem).smiles = none ↔
        (decodeLoop att idx rem).valid = 0) := by
  intro rem
  induction rem with
  | zero => intro idx; simp [decodeLoop]
  | succ m ih =>
      intro idx
      obtain ⟨h1, h2, h3, h4, h5⟩ := ih (idx + 1)
      simp only [decodeLoop]
      cases hc : (att idx).connected with
      | false =>
          simp only [Bool.false_eq_true, if_false]
          refine ⟨by omega, by omega, by omega, h4, ?_⟩
          simpa using h5
      | true =>
          simp only [if_true]
          cases hm : (att idx).molResult with
          | ok s => simp
          | error e =>
              dsimp only
              refine ⟨by omega, by omega, by omega, h4, ?_⟩
              simpa using h5

/-- A sample none of whose first `rem` attempts is connected and valid runs
through its whole budget and produces no molecule. -/
theorem decodeLoop_all_fail (att : ℕ → DecodeAttempt) :
    ∀ (rem idx : ℕ),
      (∀ j, j < rem → attemptSuccess (att (idx + j)) = false) →
      (decodeLoop att idx rem).attempts = rem ∧
      (decodeLoop att idx rem).valid = 0 ∧
      (decodeLoop att idx rem).smiles = none := by
  intro rem
  induction rem with
  | zero => intro idx _; simp [decodeLoop]
  | succ m ih =>
      intro idx hfail
      have h0 := hfail 0 (Nat.succ_pos m)
      have hrest : ∀ j, j < m → attemptSuccess (att (idx + 1 + j)) = false := by
        intro j hj
        have := hfail (j + 1) (by omega)
        rwa [show idx + (j + 1) = idx + 1 + j by omega] at this
      obtain ⟨h1, h2, h3⟩ := ih (idx + 1) hrest
      simp only [decodeLoop]
      cases hc : (att idx).connected with
      | false => simp [h1, h2, h3]
      | true =>
          cases hm : (att idx).molResult with
          | ok s => simp [attemptSuccess, hc, hm] at h0
          | error e => simp [h1, h2, h3]

/-- The retry loop stops at the first connected-and-valid attempt: if
attempt `k` (relative to `idx`) succeeds and no earlier one does, the loop
makes exactly `k + 1` attempts and records one valid molecule. -/
theorem decodeLoop_first_success (att : ℕ → DecodeAttempt) :
    ∀ (rem k idx : ℕ), k < rem →
      attemptSuccess (att (idx + k)) = true →
      (∀ j, j < k → attemptSuccess (att (idx + j)) = false) →
      (decodeLoop att idx rem).attempts = k + 1 ∧
      (decodeLoop att idx rem).valid = 1 := by
  intro rem
  induction rem with
  | zero => intro k idx hk; omega
  | succ m ih =>
      intro k idx hk hsucc hfail
      cases k with
      | zero =>
          simp only [Nat.add_zero] at hsucc
          simp only [decodeLoop]
          cases hc : (att idx).connected with
          | false => simp [attemptSuccess, hc] at hsucc
          | true =>
              cases hm : (att idx).molResult with
              | ok s => simp
              | error e => simp [attemptSuccess, hc, hm] at hsucc
      | succ j =>
          have h0 := hfail 0 (Nat.succ_pos j)
          have hsucc' : attemptSuccess (att (idx + 1 + j)) = true := by
            rwa [show idx + (j + 1) = idx + 1 + j by omega] at hsucc
          have hfail' : ∀ i, i < j → attemptSuccess (att (idx + 1 + i)) = false := by
            intro i hi
            have := hfail (i + 1) (by omega)
            rwa [show idx + (i + 1) = idx + 1 + i by omega] at this
          obtain ⟨h1, h2⟩ := ih j (idx + 1) (by omega) hsucc' hfail'
          simp only [decodeLoop]
          cases hc : (att idx).connected with
          | false => simp [h1, h2]
          | true =>
              cases hm : (att idx).molResult with
              | ok s => simp [attemptSuccess, hc, hm] at h0
              | error e => simp [h1, h2]

/-- The generation fold preserves the counter invariants: connected and
valid counts never exceed total attempts, the generated-SMILES set never
outgrows the valid count, and a positive valid count forces a non-empty
generated set. -/
theorem runGeneration_foldl_invariant (maxA : ℕ) :
    ∀ (samples : List (ℕ → DecodeAttempt)) (acc : EvalAccum),
      acc.connected ≤ acc.total → acc.valid ≤ acc.total →
      acc.smilesSet.card ≤ acc.valid →
      (0 < acc.valid → 0 < acc.smilesSet.card) →
      ((samples.foldl (fun a att => accumSample a (decodeSample att maxA))
          acc).connected ≤
        (samples.foldl (fun a att => accumSample a (decodeSample att maxA))
          acc).total ∧
       (samples.foldl (fun a att => accumSample a (decodeSample att maxA))
          acc).valid ≤
        (samples.foldl (fun a att => accumSample a (decodeSample att maxA))
          acc).total ∧
       (samples.foldl (fun a att => accumSample a (decodeSample att maxA))
          acc).smilesSet.card ≤
        (samples.foldl (fun a att => accumSample a (decodeSample att maxA))
          acc).valid ∧
       (0 < (samples.foldl (fun a att => accumSample a (decodeSample att maxA))
          acc).valid →
        0 < (samples.foldl (fun a att => accumSample a (decodeSample att maxA))
          acc).smilesSet.card)) := by
  intro samples
  induction samples with
  | nil => intro acc h1 h2 h3 h4; exact ⟨h1, h2, h3, h4⟩
  | cons att rest ih =>
      intro acc h1 h2 h3 h4
      rw [List.foldl_cons]
      obtain ⟨c1a, c2a, c3a, c4a, c5a⟩ := decodeLoop_counts att maxA 0
      have c2 : (decodeSample att maxA).connected ≤
        (decodeSample att maxA).attempts := c2a
      have c3 : (decodeSample att maxA).valid ≤
        (decodeSample att maxA).connected := c3a
      have c4 : (decodeSample att maxA).valid ≤ 1 := c4a
      have c5 : ((decodeSample att maxA).smiles = none ↔
        (decodeSample att maxA).valid = 0) := c5a
      apply ih
      · simp only [accumSample]
        omega
      · simp only [accumSample]
        omega
      · cases hs : (decodeSample att maxA).smiles with
        | none =>
            have hv0 : (decodeSample att maxA).valid = 0 := c5.mp hs
            simp only [accumSample, hs]
            omega
        | some s =>
            have hv1 : (decodeSample att maxA).valid = 1 := by
              have : ¬((decodeSample att maxA).smiles = none) := by simp [hs]
              have hne := (not_iff_not.mpr c5).mp this
              omega
            simp only [accumSample, hs]
            have := Finset.card_insert_le s acc.smilesSet
            omega
      · cases hs : (decodeSample att maxA).smiles with
        | none =>
            have hv0 : (decodeSample att maxA).valid = 0 := c5.mp hs
            simp only [accumSample, hs]
            intro hp
            exact h4 (by omega)
        | some s =>
            simp only [accumSample, hs]
            intro _
            exact Finset.card_pos.mpr ⟨s, Finset.mem_insert_self s acc.smilesSet⟩

/-- Every sample's attempts are added into the shared total: the generation
loop is a total function that counts each sample in the aggregates. -/
theorem runGeneration_foldl_total (maxA : ℕ) :
    ∀ (samples : List (ℕ → DecodeAttempt)) (acc : EvalAccum),
      (samples.foldl (fun a att => accumSample a (decodeSample att maxA))
          acc).total =
        acc.total + (samples.map (fun a => (decodeSample a maxA).attempts)).sum := by
  intro samples
  induction samples with
  | nil => intro acc; simp
  | cons att rest ih =>
      intro acc
      rw [List.foldl_cons, ih]
      simp only [accumSample, List.map_cons, List.sum_cons]
      omega

/-- C7: the per-sample decode-retry loop makes at most maxDecodeAttempts
attempts; with maxDecodeAttempts = 1 exactly one attempt is made regardless
of the outcome; the loop stops at the first connected-and-valid attempt;
when every attempt fails the whole budget is used and no molecule results,
and the sample is still counted into the aggregate totals — the loop yields
a value, never a fatal error. -/
theorem decode_retry_termination (att : ℕ → DecodeAttempt) (maxAttempts : ℕ) :
    (decodeSample att maxAttempts).attempts ≤ maxAttempts ∧
    (maxAttempts = 1 → (decodeSample att maxAttempts).attempts = 1) ∧
    (∀ k, k < maxAttempts → attemptSuccess (att k) = true →
      (∀ j, j < k → attemptSuccess (att j) = false) →
      (decodeSample att maxAttempts).attempts = k + 1 ∧
      (decodeSample att maxAttempts).valid = 1) ∧
    ((∀ j, j < maxAttempts → attemptSuccess (att j) = false) →
      (decodeSample att maxAttempts).attempts = maxAttempts ∧
      (decodeSample att maxAttempts).valid = 0 ∧
      (decodeSample att maxAttempts).smiles = none) ∧
    (∀ samples : List (ℕ → DecodeAttempt),
      (runGeneration maxAttempts samples).total =
        (samples.map (fun a => (decodeSample a maxAttempts).attempts)).sum) := by
  refine ⟨(decodeLoop_counts att maxAttempts 0).1, ?_, ?_, ?_, ?_⟩
  · intro h1
    subst h1
    have hle := (decodeLoop_counts att 1 0).1
    cases hc : (att 0).connected with
    | false =>
        have := decodeLoop_all_fail att 1 0
          (fun j hj => by
            have hj0 : j = 0 := by omega
            subst hj0
            simp [attemptSuccess, hc])
        exact this.1
    | true =>
        cases hm : (att 0).molResult with
        | ok s =>
            have := decodeLoop_first_success att 1 0 0 (by omega)
              (by simp [attemptSuccess, hc, hm]) (fun j hj => by omega)
            exact this.1
        | error e =>
            have := decodeLoop_all_fail att 1 0
              (fun j hj => by
                have hj0 : j = 0 := by omega
                subst hj0
                simp [attemptSuccess, hc, hm])
            exact this.1
  · intro k hk hsucc hfail
    exact decodeLoop_first_success att maxAttempts k 0 hk
      (by simpa using hsucc) (fun j hj => by simpa using hfail j hj)
  · intro hfail
    exact decodeLoop_all_fail att maxAttempts 0
      (fun j hj => by simpa using hfail j hj)
  · intro samples
    have := runGeneration_foldl_total maxAttempts samples ⟨0, 0, 0, ∅⟩
    simpa [runGeneration] using this

/-- Witness for the C7 theorem: a sample whose first attempt is connected
but invalid and whose second decodes a valid molecule stops after two of its
three allowed attempts; a sample with budget 1 makes exactly one attempt
even though it fails. -/
theorem decode_retry_termination_witness :
    (decodeSample (fun i => if i = 0 then ⟨true, .error .valenceError⟩
      else ⟨true, .ok 5⟩) 3).attempts = 2 ∧
    (decodeSample (fun i => if i = 0 then ⟨true, .error .valenceError⟩
      else ⟨true, .ok 5⟩) 3).valid = 1 ∧
    (decodeSample (fun _ => ⟨false, .error .valenceError⟩) 1).attempts = 1 :=
  ⟨((decode_retry_termination (fun i => if i = 0 then ⟨true, .error .valenceError⟩
      else ⟨true, .ok 5⟩) 3).2.2.1 1 (by decide) (by decide)
      (fun j hj => by
        have hj0 : j = 0 := by omega
        subst hj0
        decide)).1,
   ((decode_retry_termination (fun i => if i = 0 then ⟨true, .error .valenceError⟩
      else ⟨true, .ok 5⟩) 3).2.2.1 1 (by decide) (by decide)
      (fun j hj => by
        have hj0 : j = 0 := by omega
        subst hj0
        decide)).2,
   (decode_retry_termination (fun _ => ⟨false, .error .valenceError⟩) 1).2.1 rfl⟩

/-- C2 counterexample: a run of one sample whose single decode attempt is
disconnected yields zero valid molecules, and the metrics computation then
divides by zero (Python's ZeroDivisionError) at the uniqueness entry instead
of reporting the rate as undefined. -/
theorem generation_metrics_zero_valid_counterexample :
    (runGeneration 1 [fun _ => ⟨false, .error .valenceError⟩]).valid = 0 ∧
    computeMetrics ∅ 1 (runGeneration 1 [fun _ => ⟨false, .error .valenceError⟩]) =
      .error .zeroDivision :=
  ⟨by decide, by decide⟩

/-- C2 amended: whenever at least one attempt was made and at least one
molecule is valid, all four derived rates are well defined and lie in [0,1];
when the valid count is zero, the metrics computation raises
ZeroDivisionError (it does not report uniqueness as undefined). -/
theorem generation_metrics_bounds (maxA : ℕ)
    (samples : List (ℕ → DecodeAttempt)) (trainSmiles : Finset ℕ)
    (hs : samples ≠ []) :
    (0 < (runGeneration maxA samples).total →
     0 < (runGeneration maxA samples).valid →
      ∃ m, computeMetrics trainSmiles samples.length
          (runGeneration maxA samples) = .ok m ∧
        0 ≤ m.connectedness ∧ m.connectedness ≤ 1 ∧
        0 ≤ m.validity ∧ m.validity ≤ 1 ∧
        0 ≤ m.uniqueness ∧ m.uniqueness ≤ 1 ∧
        0 ≤ m.novelty ∧ m.novelty ≤ 1) ∧
    ((runGeneration maxA samples).valid = 0 →
      computeMetrics trainSmiles samples.length
        (runGeneration maxA samples) = .error .zeroDivision) := by
  obtain ⟨i1, i2, i3, i4⟩ := runGeneration_foldl_invariant maxA samples
    ⟨0, 0, 0, ∅⟩ (le_refl 0) (le_refl 0) (by simp) (fun h => absurd h (by simp))
  have j1 : (runGeneration maxA samples).connected ≤
      (runGeneration maxA samples).total := i1
  have j2 : (runGeneration maxA samples).valid ≤
      (runGeneration maxA samples).total := i2
  have j3 : (runGeneration maxA samples).smilesSet.card ≤
      (runGeneration maxA samples).valid := i3
  have j4 : (0 < (runGeneration maxA samples).valid →
      0 < (runGeneration maxA samples).smilesSet.card) := i4
  have hlen : ¬((samples.length : ℚ) = 0) := by
    have hpos : 0 < samples.length := List.length_pos.mpr hs
    exact Nat.cast_ne_zero.mpr (by omega)
  constructor
  · intro hT hV
    have hC := j4 hV
    have htot : ¬(((runGeneration maxA samples).total : ℚ) = 0) :=
      Nat.cast_ne_zero.mpr (by omega)
    have hval : ¬(((runGeneration maxA samples).valid : ℚ) = 0) :=
      Nat.cast_ne_zero.mpr (by omega)
    have hcard : ¬(((runGeneration maxA samples).smilesSet.card : ℚ) = 0) :=
      Nat.cast_ne_zero.mpr (by omega)
    simp only [computeMetrics, pyDiv, if_neg hlen, if_neg htot, if_neg hval,
      if_neg hcard]
    refine ⟨_, rfl, ?_, ?_, ?_, ?_, ?_, ?_, ?_, ?_⟩
    · exact div_nonneg (by positivity) (by positivity)
    · rw [div_le_one (by positivity)]
      exact_mod_cast j1
    · exact div_nonneg (by positivity) (by positivity)
    · rw [div_le_one (by positivity)]
      exact_mod_cast j2
    · exact div_nonneg (by positivity) (by positivity)
    · rw [div_le_one (by positivity)]
      exact_mod_cast j3
    · apply div_nonneg _ (by positivity)
      have hsub : (0 : ℤ) ≤ ((runGeneration maxA samples).smilesSet.card : ℤ) -
          ((trainSmiles ∩ (runGeneration maxA samples).smilesSet).card : ℤ) := by
        have hinter : (trainSmiles ∩ (runGeneration maxA samples).smilesSet).card ≤
            (runGeneration maxA samples).smilesSet.card :=
          Finset.card_le_card Finset.inter_subset_right
        omega
      exact_mod_cast hsub
    · rw [div_le_one (by positivity)]
      have hsub : ((runGeneration maxA samples).smilesSet.card : ℤ) -
          ((trainSmiles ∩ (runGeneration maxA samples).smilesSet).card : ℤ) ≤
          ((runGeneration maxA samples).smilesSet.card : ℤ) := by omega
      exact_mod_cast hsub
  · intro hV
    by_cases hT : (runGeneration maxA samples).total = 0
    · have htot0 : (((runGeneration maxA samples).total : ℚ) = 0) := by
        rw [hT]; norm_num
      simp only [computeMetrics, pyDiv, if_neg hlen, if_pos htot0]
      rfl
    · have htot : ¬(((runGeneration maxA samples).total : ℚ) = 0) :=
        Nat.cast_ne_zero.mpr hT
      have hval0 : (((runGeneration maxA samples).valid : ℚ) = 0) := by
        rw [hV]; norm_num
      simp only [computeMetrics, pyDiv, if_neg hlen, if_neg htot, if_pos hval0]
      rfl

/-- Witness for the C2 amended theorem: one sample decoding a valid
connected molecule on its single attempt gives well-defined rates in [0,1]. -/
theorem generation_metrics_bounds_witness :
    ∃ m, computeMetrics ∅ 1
        (runGeneration 1 [fun _ => (⟨true, .ok 7⟩ : DecodeAttempt)]) = .ok m ∧
      0 ≤ m.connectedness ∧ m.connectedness ≤ 1 ∧
      0 ≤ m.validity ∧ m.validity ≤ 1 ∧
      0 ≤ m.uniqueness ∧ m.uniqueness ≤ 1 ∧
      0 ≤ m.novelty ∧ m.novelty ≤ 1 :=
  (generation_metrics_bounds 1 [fun _ => (⟨true, .ok 7⟩ : DecodeAttempt)] ∅
    (by simp)).1 (by decide) (by decide)
